import Mathlib

/-!
Verification of the connection-state synchronization and live-rendering
subsystem of http-tui (src/main.rs).

Shallow embedding conventions:
- `f32` speed values are modelled as exact rationals (`ℚ`); the claims
  settled here concern the algorithmic structure of the computations, not
  floating-point rounding.
- `std::time::Instant` is modelled as a `Nat` counting nanoseconds on a
  monotone clock; `Instant::now()` becomes an explicit `now : Nat`
  parameter threaded into the operations that read the clock.
- `usize` counters are modelled as `Nat`.  The one place where unsigned
  subtraction can underflow (`bytes_sent - prev_bytes_sent` in
  `estimated_speed`, which panics in debug builds) is modelled by an
  explicit guard returning `none`.
- `HashMap` is modelled as an association list together with lookup /
  insert / erase operations that match the map semantics (`insert`
  replaces the binding of the key); iteration order of a Rust `HashMap`
  is arbitrary, and every property proved below is insensitive to it.
-/

/-- Model of `std::net::SocketAddr`: an opaque peer identity with decidable
equality, sufficient for its use as a registry key. -/
structure SocketAddr where
  host : Nat
  port : Nat
deriving DecidableEq, Repr

/-- Model of `server::HttpConnection` as seen by main.rs: the raw snapshot
view of one connection.  `peer_addr` models `conn.stream.peer_addr()`, with
`none` standing for the `Err` case of a torn-down socket. -/
structure HttpConnection where
  peer_addr : Option SocketAddr
  bytes_sent : Nat
  bytes_requested : Nat
  last_requested_uri : Option String
deriving DecidableEq, Repr

/-- Model of `ConnectionSpeedMeasurement` (src/main.rs:45-48): a 3-slot ring
buffer of speed samples plus a write cursor.  The cursor is kept in `Fin 3`,
reflecting the invariant `ind < 3` maintained by the mod-3 increment. -/
structure ConnectionSpeedMeasurement where
  speeds : Fin 3 → ℚ
  ind : Fin 3

/-- `ConnectionSpeedMeasurement::new` (src/main.rs:51-56). -/
def ConnectionSpeedMeasurement.new : ConnectionSpeedMeasurement :=
  { speeds := fun _ => 0, ind := 0 }

/-- `ConnectionSpeedMeasurement::update` (src/main.rs:58-61): overwrite the
slot at the cursor, advance the cursor modulo 3 (`Fin 3` addition is exactly
`(ind + 1) % 3`). -/
def ConnectionSpeedMeasurement.update (s : ConnectionSpeedMeasurement) (speed : ℚ) :
    ConnectionSpeedMeasurement :=
  { speeds := Function.update s.speeds s.ind speed, ind := s.ind + 1 }

/-- `ConnectionSpeedMeasurement::get_avg` (src/main.rs:63-65). -/
def ConnectionSpeedMeasurement.get_avg (s : ConnectionSpeedMeasurement) : ℚ :=
  (s.speeds 0 + s.speeds 1 + s.speeds 2) / 3

/-- Model of `Connection` (src/main.rs:68-77). -/
structure Connection where
  addr : SocketAddr
  bytes_sent : Nat
  bytes_requested : Nat
  prev_bytes_sent : Nat
  update_time : Nat
  prev_update_time : Nat
  avg_speed : ConnectionSpeedMeasurement
  last_requested_uri : String

/-- `Connection::new` (src/main.rs:80-91); `now` models the two
`Instant::now()` reads. -/
def Connection.new (addr : SocketAddr) (now : Nat) : Connection :=
  { addr := addr
    bytes_sent := 0
    prev_bytes_sent := 0
    bytes_requested := 0
    update_time := now
    prev_update_time := now
    avg_speed := ConnectionSpeedMeasurement.new
    last_requested_uri := "[Reading...]" }

/-- `Connection::update` (src/main.rs:93-99): copy both byte counters; copy
`last_requested_uri` only when the snapshot carries one. -/
def Connection.update (c : Connection) (conn : HttpConnection) : Connection :=
  { c with
    bytes_sent := conn.bytes_sent
    bytes_requested := conn.bytes_requested
    last_requested_uri :=
      match conn.last_requested_uri with
      | some uri => uri
      | none => c.last_requested_uri }

/-- Elapsed milliseconds of a duration given in nanoseconds, exactly as
src/main.rs:106 computes it: `1000 * dur.as_secs() + dur.subsec_nanos() / 1000000`. -/
def millisOf (durNs : Nat) : Nat :=
  1000 * (durNs / 1000000000) + (durNs % 1000000000) / 1000000

/-- `Connection::estimated_speed` (src/main.rs:101-114).  The record rolls
`prev_update_time` and `update_time` forward first; if the elapsed
milliseconds are zero it returns `0.0` at once.  Otherwise it computes the
byte delta with an unguarded `usize` subtraction — modelled by `none` when
`bytes_sent < prev_bytes_sent` — feeds the instantaneous speed to the ring
buffer, rolls `prev_bytes_sent` forward and returns the ring-buffer mean. -/
def Connection.estimated_speed (c : Connection) (now : Nat) :
    Option (Connection × ℚ) :=
  let c1 := { c with prev_update_time := c.update_time, update_time := now }
  let durNs := c1.update_time - c1.prev_update_time
  let millis := millisOf durNs
  if millis = 0 then some (c1, 0)
  else if c1.bytes_sent < c1.prev_bytes_sent then none
  else
    let speed : ℚ := ((c1.bytes_sent - c1.prev_bytes_sent : ℕ) : ℚ) / (millis : ℚ) * 1000
    let avg_speed := c1.avg_speed.update speed
    some ({ c1 with avg_speed := avg_speed, prev_bytes_sent := c1.bytes_sent },
          avg_speed.get_avg)

/-! Association-list maps with `HashMap` semantics. -/

/-- Lookup of the binding of key `a`. -/
def mapLookup {α β : Type} [DecidableEq α] : List (α × β) → α → Option β
  | [], _ => none
  | (k, v) :: rest, a => if a = k then some v else mapLookup rest a

/-- Removal of every binding of key `k` (`HashMap::remove`). -/
def mapEraseKey {α β : Type} [DecidableEq α] : List (α × β) → α → List (α × β)
  | [], _ => []
  | (k, v) :: rest, a =>
      if k = a then mapEraseKey rest a else (k, v) :: mapEraseKey rest a

/-- Insertion with replacement (`HashMap::insert`). -/
def mapInsert {α β : Type} [DecidableEq α] (m : List (α × β)) (k : α) (v : β) :
    List (α × β) :=
  mapEraseKey m k ++ [(k, v)]

/-- Key membership (`HashMap::contains_key`). -/
def mapContainsKey {α β : Type} [DecidableEq α] (m : List (α × β)) (a : α) : Bool :=
  (mapLookup m a).isSome

/-- The list of keys of a map. -/
def mapKeys {α β : Type} (m : List (α × β)) : List α :=
  m.map (fun p => p.1)

/-- Model of `ConnectionSet` (src/main.rs:117-119). -/
structure ConnectionSet where
  connections : List (SocketAddr × Connection)

/-- `ConnectionSet::new` (src/main.rs:122-126). -/
def ConnectionSet.new : ConnectionSet := ⟨[]⟩

/-- Phase 1 of `ConnectionSet::update` (src/main.rs:129-136): re-key the
snapshot by peer address, silently skipping entries whose peer address is
unavailable. -/
def reindex (current_conns : List (Int × HttpConnection)) :
    List (SocketAddr × HttpConnection) :=
  current_conns.foldl
    (fun m p =>
      match p.2.peer_addr with
      | some peer_addr => mapInsert m peer_addr p.2
      | none => m)
    []

/-- Phase 2a of `ConnectionSet::update` (src/main.rs:138-143): the addresses
of tracked records absent from the re-keyed snapshot. -/
def toDeleteList (self : List (SocketAddr × Connection))
    (reindexed : List (SocketAddr × HttpConnection)) : List SocketAddr :=
  self.foldl
    (fun acc p =>
      if mapContainsKey reindexed p.2.addr then acc else acc ++ [p.2.addr])
    []

/-- Phase 2b of `ConnectionSet::update` (src/main.rs:145-147): remove every
collected address. -/
def eraseAll {α β : Type} [DecidableEq α] (m : List (α × β)) (ds : List α) :
    List (α × β) :=
  ds.foldl (fun m addr => mapEraseKey m addr) m

/-- Phase 3 of `ConnectionSet::update` (src/main.rs:149-153): for every
re-keyed snapshot entry, get-or-create the record for its address
(`entry(addr).or_insert(Connection::new(addr))`) and apply
`Connection::update` to it. -/
def upsertAll (now : Nat) (reindexed : List (SocketAddr × HttpConnection))
    (m : List (SocketAddr × Connection)) : List (SocketAddr × Connection) :=
  reindexed.foldl
    (fun m p =>
      mapInsert m p.1 (((mapLookup m p.1).getD (Connection.new p.1 now)).update p.2))
    m

/-- `ConnectionSet::update` (src/main.rs:128-154): re-key the snapshot,
collect the addresses of tracked records absent from the re-keyed snapshot,
remove them, then get-or-create a record for every snapshot entry and apply
`Connection::update` to it.  `now` models the `Instant::now()` reads inside
`Connection::new`. -/
def ConnectionSet.update (self : ConnectionSet)
    (current_conns : List (Int × HttpConnection)) (now : Nat) : ConnectionSet :=
  let reindexed := reindex current_conns
  ⟨upsertAll now reindexed
    (eraseAll self.connections (toDeleteList self.connections reindexed))⟩

/-- The percentage-complete computation of `build_str` (src/main.rs:229-231). -/
def build_str_perc (conn : Connection) : Nat :=
  if conn.bytes_requested = 0 then 0 else 100 * conn.bytes_sent / conn.bytes_requested

/-- The shared state wired up in `main` (src/main.rs:179-180): the registry
behind its mutex, and the `connection_set_needs_update` atomic flag. -/
structure TuiState where
  needs_update : Bool
  connection_set : ConnectionSet

/-- The serving loop's per-tick callback (src/main.rs:214-218):
`swap(false)` on the flag, and reconcile the registry only when the swapped
out value was `true`. -/
def serving_callback (s : TuiState) (connections : List (Int × HttpConnection))
    (now : Nat) : TuiState :=
  if s.needs_update then
    { needs_update := false
      connection_set := s.connection_set.update connections now }
  else
    { s with needs_update := false }

/-- The render condition of the render loop (src/main.rs:263-265): the
original dirty-flag test is commented out in the source and replaced by the
literal `if true`. -/
def display_render_condition : Bool := true

/-- One cycle of the render half of `display` (src/main.rs:262-296), at the
granularity of the dirty-flag protocol: when the render condition holds the
loop stores `true` into the flag and then locks the registry and rebuilds
the frame (the returned `Bool` reports whether a frame was rebuilt). -/
def display_tick (s : TuiState) : TuiState × Bool :=
  if display_render_condition then
    ({ s with needs_update := true }, true)
  else
    (s, false)

/-- Feeding a sequence of speed samples to a ring buffer, one `update` per
sample. -/
def feedAll (s : ConnectionSpeedMeasurement) (l : List ℚ) :
    ConnectionSpeedMeasurement :=
  l.foldl ConnectionSpeedMeasurement.update s

/-- The value held in slot `j` of a ring buffer freshly created and then fed
the samples of `l` in order: the sample at the largest index congruent to
`j` modulo 3, or `0` when no sample has landed in that slot yet. -/
def slotVal (l : List ℚ) (j : Fin 3) : ℚ :=
  if (j : ℕ) < l.length then
    l.getD (l.length - 1 - ((l.length - 1 - (j : ℕ)) % 3)) 0
  else 0

/-- A map whose keys are pairwise distinct. -/
abbrev NodupKeys {α β : Type} (m : List (α × β)) : Prop :=
  (mapKeys m).Nodup

/-- The registry invariant: every record is filed under its own address. -/
abbrev WFConnections (m : List (SocketAddr × Connection)) : Prop :=
  ∀ p ∈ m, p.2.addr = p.1

/-! Concrete records used by witnesses and counterexamples. -/

/-- A sample peer address. -/
def sampleAddr : SocketAddr := ⟨1, 2⟩

/-- A record whose requested-byte counter is zero. -/
def connZeroReq : Connection :=
  { Connection.new sampleAddr 0 with bytes_sent := 7 }

/-- A record half way through its transfer. -/
def connHalf : Connection :=
  { Connection.new sampleAddr 0 with bytes_sent := 5, bytes_requested := 10 }

/-- A record whose sent counter slightly exceeds its requested counter. -/
def overfullConn : Connection :=
  { Connection.new sampleAddr 0 with bytes_sent := 201, bytes_requested := 200 }

/-- A record last measured at 5 ms on the nanosecond clock, with a pending
byte delta. -/
def zeroElapsedConn : Connection :=
  { Connection.new ⟨9, 9⟩ 0 with
    bytes_sent := 10, prev_bytes_sent := 3, update_time := 5000000 }

/-- A record whose sent counter has decreased below the previously sampled
value. -/
def shrunkConn : Connection :=
  { Connection.new ⟨9, 9⟩ 0 with bytes_sent := 5, prev_bytes_sent := 100 }

/-- A first concrete peer address. -/
def addrA : SocketAddr := ⟨10, 1⟩

/-- A second concrete peer address. -/
def addrB : SocketAddr := ⟨10, 2⟩

/-- A resolvable snapshot entry at `addrA` carrying a URI. -/
def snapA : HttpConnection := ⟨some addrA, 500, 1000, some "/a.txt"⟩

/-- A snapshot entry whose peer address cannot be resolved. -/
def snapNoAddr : HttpConnection := ⟨none, 5, 5, none⟩

/-- A registry tracking a single record at `addrB`. -/
def regB : ConnectionSet := ⟨[(addrB, Connection.new addrB 0)]⟩

/-- A snapshot containing only the entry at `addrA`. -/
def snapshotA : List (Int × HttpConnection) := [(1, snapA)]

/-- C4: the percentage-complete computation of `build_str` yields `0` when
`bytes_requested = 0` and `100 * bytes_sent / bytes_requested` otherwise,
with no division by zero on any input. -/
theorem build_str_perc_safe (conn : Connection) :
    (conn.bytes_requested = 0 → build_str_perc conn = 0)
  ∧ (conn.bytes_requested ≠ 0 →
      build_str_perc conn = 100 * conn.bytes_sent / conn.bytes_requested) := by
  constructor
  · intro h; simp [build_str_perc, h]
  · intro h; simp [build_str_perc, h]

/-- Witness for C4 at two concrete records. -/
theorem build_str_perc_safe_witness :
    (connZeroReq.bytes_requested = 0 ∧ build_str_perc connZeroReq = 0)
  ∧ (connHalf.bytes_requested ≠ 0
      ∧ build_str_perc connHalf = 100 * connHalf.bytes_sent / connHalf.bytes_requested) :=
  ⟨⟨rfl, (build_str_perc_safe connZeroReq).1 rfl⟩,
   ⟨by decide, (build_str_perc_safe connHalf).2 (by decide)⟩⟩

/-- C9 counterexample: at `bytes_sent = 201`, `bytes_requested = 200` the
sent counter exceeds the requested counter yet the computed percentage is
exactly 100, not above it. -/
theorem build_str_perc_counterexample :
    overfullConn.bytes_requested < overfullConn.bytes_sent
  ∧ ¬ (100 < build_str_perc overfullConn) := by decide

/-- C9 (amended): for `bytes_requested > 0` the percentage is the exact
integer floor of `100 * bytes_sent / bytes_requested`; it is at least 100
whenever `bytes_sent ≥ bytes_requested`, and it is not clamped — it can
strictly exceed 100 — but `bytes_sent > bytes_requested` alone only
guarantees at least 100, not strictly more. -/
theorem build_str_perc_unclamped (conn : Connection)
    (h : 0 < conn.bytes_requested) :
    build_str_perc conn = 100 * conn.bytes_sent / conn.bytes_requested
  ∧ (conn.bytes_requested ≤ conn.bytes_sent → 100 ≤ build_str_perc conn)
  ∧ ∃ c : Connection, c.bytes_requested < c.bytes_sent ∧ 100 < build_str_perc c := by
  have h0 : conn.bytes_requested ≠ 0 := by omega
  have hperc : build_str_perc conn = 100 * conn.bytes_sent / conn.bytes_requested := by
    simp [build_str_perc, h0]
  refine ⟨hperc, ?_, ?_⟩
  · intro hle
    rw [hperc, Nat.le_div_iff_mul_le h]
    exact Nat.mul_le_mul_left 100 hle
  · exact ⟨{ Connection.new sampleAddr 0 with bytes_sent := 2, bytes_requested := 1 },
      by decide⟩

/-- Witness for C9 (amended) at the 201/200 record. -/
theorem build_str_perc_unclamped_witness :
    0 < overfullConn.bytes_requested
  ∧ build_str_perc overfullConn
      = 100 * overfullConn.bytes_sent / overfullConn.bytes_requested :=
  ⟨by decide, (build_str_perc_unclamped overfullConn (by decide)).1⟩

/-- C2 counterexample: a zero-elapsed call to `estimated_speed` returns `0`
and leaves `prev_bytes_sent` alone, but it does change `prev_update_time`
(here from `0` to `5000000`), contrary to the claim that both fields are
left unchanged. -/
theorem estimated_speed_zero_elapsed_counterexample :
    millisOf (5000000 - zeroElapsedConn.update_time) = 0
  ∧ (zeroElapsedConn.estimated_speed 5000000).map
        (fun r => (r.2, r.1.prev_bytes_sent, r.1.prev_update_time))
      = some (0, 3, 5000000)
  ∧ zeroElapsedConn.prev_update_time = 0 := by decide

/-- C2 (amended): a call to `estimated_speed` with zero elapsed milliseconds
returns `0.0` without dividing, and leaves `prev_bytes_sent`, `bytes_sent`
and the ring buffer unchanged, so the byte delta of the next call is not
corrupted; however it does roll `prev_update_time` forward to the old
`update_time` (and `update_time` to the current instant) before the early
return. -/
theorem estimated_speed_zero_elapsed (c : Connection) (now : Nat)
    (h : millisOf (now - c.update_time) = 0) :
    ∃ c2 : Connection, c.estimated_speed now = some (c2, 0)
      ∧ c2.prev_bytes_sent = c.prev_bytes_sent
      ∧ c2.bytes_sent = c.bytes_sent
      ∧ c2.avg_speed = c.avg_speed
      ∧ c2.prev_update_time = c.update_time
      ∧ c2.update_time = now := by
  refine ⟨{ c with prev_update_time := c.update_time, update_time := now },
    ?_, rfl, rfl, rfl, rfl, rfl⟩
  simp [Connection.estimated_speed, h]

/-- Witness for C2 (amended) at the concrete 5 ms record. -/
theorem estimated_speed_zero_elapsed_witness :
    millisOf (5000000 - zeroElapsedConn.update_time) = 0
  ∧ ∃ c2 : Connection, zeroElapsedConn.estimated_speed 5000000 = some (c2, 0)
      ∧ c2.prev_bytes_sent = zeroElapsedConn.prev_bytes_sent
      ∧ c2.bytes_sent = zeroElapsedConn.bytes_sent
      ∧ c2.avg_speed = zeroElapsedConn.avg_speed
      ∧ c2.prev_update_time = zeroElapsedConn.update_time
      ∧ c2.update_time = 5000000 :=
  ⟨by decide, estimated_speed_zero_elapsed zeroElapsedConn 5000000 (by decide)⟩

/-- C10: the byte delta of `estimated_speed` is an unguarded unsigned
subtraction: the call is well defined whenever `prev_bytes_sent ≤
bytes_sent`, but if the sent counter has decreased since the previous
sample and nonzero time has elapsed, the subtraction underflows (modelled
as `none`) instead of producing a zero or negative speed; `Connection.update`
can create such a state since it overwrites `bytes_sent` from the snapshot
while leaving `prev_bytes_sent` alone. -/
theorem estimated_speed_underflow (c : Connection) (now : Nat)
    (hc : HttpConnection) :
    (c.prev_bytes_sent ≤ c.bytes_sent → (c.estimated_speed now).isSome = true)
  ∧ (c.bytes_sent < c.prev_bytes_sent → millisOf (now - c.update_time) ≠ 0 →
      c.estimated_speed now = none)
  ∧ (c.update hc).bytes_sent = hc.bytes_sent
  ∧ (c.update hc).prev_bytes_sent = c.prev_bytes_sent := by
  refine ⟨?_, ?_, rfl, rfl⟩
  · intro h
    by_cases h0 : millisOf (now - c.update_time) = 0
    · simp [Connection.estimated_speed, h0]
    · simp [Connection.estimated_speed, h0, Nat.not_lt.mpr h]
  · intro h1 h2
    simp [Connection.estimated_speed, h1, h2]

/-- Witness for C10: the subtraction is fine on a growing counter and
underflows on a shrunken counter after 9 ms. -/
theorem estimated_speed_underflow_witness :
    (zeroElapsedConn.prev_bytes_sent ≤ zeroElapsedConn.bytes_sent
      ∧ (zeroElapsedConn.estimated_speed 9000000).isSome = true)
  ∧ (shrunkConn.bytes_sent < shrunkConn.prev_bytes_sent
      ∧ millisOf (9000000 - shrunkConn.update_time) ≠ 0
      ∧ shrunkConn.estimated_speed 9000000 = none) :=
  ⟨⟨by decide,
    (estimated_speed_underflow zeroElapsedConn 9000000 ⟨none, 0, 0, none⟩).1 (by decide)⟩,
   ⟨by decide, by decide,
    (estimated_speed_underflow shrunkConn 9000000 ⟨none, 0, 0, none⟩).2.1
      (by decide) (by decide)⟩⟩

/-- C1 counterexample: with the flag clear (no fresh snapshot) the render
loop still rebuilds the frame, and the serving loop's callback leaves the
flag `false` rather than setting it — both contrary to the claim. -/
theorem dirty_flag_counterexample :
    (display_tick { needs_update := false, connection_set := ConnectionSet.new }).2 = true
  ∧ (serving_callback { needs_update := true, connection_set := ConnectionSet.new }
        [] 0).needs_update = false := by
  exact ⟨rfl, rfl⟩

/-- C1 (amended): the flag protocol is inverted relative to the claim: the
render loop stores `true` into the flag and rebuilds the frame on every
cycle regardless of the flag (the dirty-flag test at src/main.rs:265 is the
literal `if true`), while the serving loop's callback always swaps the flag
to `false` and reconciles the registry exactly when the swapped-out value
was `true`. -/
theorem dirty_flag_amended (s : TuiState) (cc : List (Int × HttpConnection))
    (now : Nat) :
    (display_tick s).1.needs_update = true
  ∧ (display_tick s).2 = true
  ∧ (serving_callback s cc now).needs_update = false
  ∧ (s.needs_update = true →
      (serving_callback s cc now).connection_set = s.connection_set.update cc now)
  ∧ (s.needs_update = false →
      (serving_callback s cc now).connection_set = s.connection_set) := by
  refine ⟨rfl, rfl, ?_, ?_, ?_⟩
  · unfold serving_callback
    split <;> rfl
  · intro h; simp [serving_callback, h]
  · intro h; simp [serving_callback, h]

/-- Witness for C1 (amended) at both flag values. -/
theorem dirty_flag_amended_witness :
    (serving_callback { needs_update := true, connection_set := ConnectionSet.new }
        [] 0).connection_set = ConnectionSet.new.update [] 0
  ∧ (serving_callback { needs_update := false, connection_set := ConnectionSet.new }
        [] 0).connection_set = ConnectionSet.new :=
  ⟨(dirty_flag_amended ⟨true, ConnectionSet.new⟩ [] 0).2.2.2.1 rfl,
   (dirty_flag_amended ⟨false, ConnectionSet.new⟩ [] 0).2.2.2.2 rfl⟩

/-! Lemmas about the association-list map operations. -/

/-- Lookup after erasing a key. -/
theorem mapLookup_eraseKey {α β : Type} [DecidableEq α]
    (m : List (α × β)) (k a : α) :
    mapLookup (mapEraseKey m k) a = if a = k then none else mapLookup m a := by
  induction m with
  | nil => simp [mapEraseKey, mapLookup]
  | cons p rest ih =>
    obtain ⟨k1, v1⟩ := p
    by_cases h1 : k1 = k <;> by_cases h2 : a = k1 <;>
      simp_all [mapEraseKey, mapLookup]

/-- Lookup distributes over append, preferring the first map. -/
theorem mapLookup_append {α β : Type} [DecidableEq α]
    (m1 m2 : List (α × β)) (a : α) :
    mapLookup (m1 ++ m2) a =
      match mapLookup m1 a with
      | some v => some v
      | none => mapLookup m2 a := by
  induction m1 with
  | nil => simp [mapLookup]
  | cons p rest ih =>
    obtain ⟨k, v⟩ := p
    by_cases h : a = k <;> simp [mapLookup, h, ih]

/-- Lookup after an insertion with replacement. -/
theorem mapLookup_insert {α β : Type} [DecidableEq α]
    (m : List (α × β)) (k : α) (v : β) (a : α) :
    mapLookup (mapInsert m k v) a = if a = k then some v else mapLookup m a := by
  rw [mapInsert, mapLookup_append, mapLookup_eraseKey]
  by_cases h : a = k
  · simp [mapLookup, h]
  · cases hm : mapLookup m a <;> simp [mapLookup, h, hm]

/-- A key looks up to `none` exactly when it is not among the keys. -/
theorem mapLookup_eq_none_iff {α β : Type} [DecidableEq α]
    (m : List (α × β)) (a : α) :
    mapLookup m a = none ↔ a ∉ mapKeys m := by
  induction m with
  | nil => simp [mapLookup, mapKeys]
  | cons p rest ih =>
    obtain ⟨k, v⟩ := p
    by_cases h : a = k <;> simp [mapLookup, mapKeys, h, ih]

/-- A successful lookup exhibits a bound pair of the map. -/
theorem mapLookup_mem {α β : Type} [DecidableEq α]
    {m : List (α × β)} {a : α} {v : β}
    (h : mapLookup m a = some v) : (a, v) ∈ m := by
  induction m with
  | nil => simp [mapLookup] at h
  | cons p rest ih =>
    obtain ⟨k, w⟩ := p
    by_cases h1 : a = k
    · subst h1
      simp [mapLookup] at h
      subst h
      exact List.mem_cons_self _ _
    · simp [mapLookup, h1] at h
      exact List.mem_cons_of_mem _ (ih h)

/-- Erasing a key yields a sublist. -/
theorem mapEraseKey_sublist {α β : Type} [DecidableEq α]
    (m : List (α × β)) (k : α) :
    (mapEraseKey m k).Sublist m := by
  induction m with
  | nil => simp [mapEraseKey]
  | cons p rest ih =>
    obtain ⟨k1, v1⟩ := p
    by_cases h : k1 = k
    · simpa [mapEraseKey, h] using ih.cons (k1, v1)
    · simpa [mapEraseKey, h] using ih.cons₂ (k1, v1)

/-- Erasing a key preserves distinctness of keys. -/
theorem nodupKeys_eraseKey {α β : Type} [DecidableEq α]
    (m : List (α × β)) (k : α) (h : NodupKeys m) :
    NodupKeys (mapEraseKey m k) :=
  List.Nodup.sublist (List.Sublist.map _ (mapEraseKey_sublist m k)) h

/-- An erased key is gone from the key list. -/
theorem not_mem_keys_eraseKey {α β : Type} [DecidableEq α]
    (m : List (α × β)) (k : α) :
    k ∉ mapKeys (mapEraseKey m k) := by
  rw [← mapLookup_eq_none_iff, mapLookup_eraseKey]
  simp

/-- Insertion with replacement preserves distinctness of keys. -/
theorem nodupKeys_insert {α β : Type} [DecidableEq α]
    (m : List (α × β)) (k : α) (v : β) (h : NodupKeys m) :
    NodupKeys (mapInsert m k v) := by
  unfold NodupKeys mapInsert mapKeys
  rw [List.map_append]
  rw [List.nodup_append]
  refine ⟨nodupKeys_eraseKey m k h, by simp, ?_⟩
  intro x hx
  simp only [List.map_cons, List.map_nil, List.mem_singleton]
  intro hxk
  rw [hxk] at hx
  exact not_mem_keys_eraseKey m k hx

/-- Re-keying a snapshot produces pairwise distinct peer addresses. -/
theorem nodupKeys_reindex (cc : List (Int × HttpConnection)) :
    NodupKeys (reindex cc) := by
  have main : ∀ (l : List (Int × HttpConnection))
      (acc : List (SocketAddr × HttpConnection)), NodupKeys acc →
      NodupKeys (l.foldl
        (fun m p =>
          match p.2.peer_addr with
          | some peer_addr => mapInsert m peer_addr p.2
          | none => m)
        acc) := by
    intro l
    induction l with
    | nil => intro acc h; simpa using h
    | cons p rest ih =>
      intro acc h
      simp only [List.foldl_cons]
      cases hp : p.2.peer_addr with
      | none => simp only [hp]; exact ih acc h
      | some addr => simp only [hp]; exact ih _ (nodupKeys_insert _ _ _ h)
  exact main cc [] (by simp [NodupKeys, mapKeys])

/-- Lookup after erasing a batch of keys. -/
theorem mapLookup_eraseAll {α β : Type} [DecidableEq α]
    (ds : List α) (m : List (α × β)) (a : α) :
    mapLookup (eraseAll m ds) a = if a ∈ ds then none else mapLookup m a := by
  induction ds generalizing m with
  | nil => simp [eraseAll]
  | cons d rest ih =>
    simp only [eraseAll, List.foldl_cons]
    rw [show (List.foldl (fun m addr => mapEraseKey m addr) (mapEraseKey m d) rest)
        = eraseAll (mapEraseKey m d) rest from rfl, ih]
    by_cases h1 : a ∈ rest
    · simp [h1]
    · by_cases h2 : a = d <;> simp [h1, h2, mapLookup_eraseKey]

/-- Pointwise effect of the get-or-create-then-update pass over a re-keyed
snapshot with pairwise distinct addresses. -/
theorem mapLookup_upsertAll (now : Nat)
    (r : List (SocketAddr × HttpConnection)) (a : SocketAddr) :
    ∀ m : List (SocketAddr × Connection), NodupKeys r →
    mapLookup (upsertAll now r m) a =
      match mapLookup r a with
      | some conn => some (((mapLookup m a).getD (Connection.new a now)).update conn)
      | none => mapLookup m a := by
  induction r with
  | nil => intro m _; simp [upsertAll, mapLookup]
  | cons q rest ih =>
    intro m hnodup
    obtain ⟨k, v⟩ := q
    have hcons : k ∉ mapKeys rest ∧ NodupKeys rest := by
      simpa [NodupKeys, mapKeys, List.nodup_cons] using hnodup
    have hstep : upsertAll now ((k, v) :: rest) m
        = upsertAll now rest
            (mapInsert m k (((mapLookup m k).getD (Connection.new k now)).update v)) := rfl
    rw [hstep, ih _ hcons.2]
    by_cases ha : a = k
    · subst ha
      have hrest : mapLookup rest a = none :=
        (mapLookup_eq_none_iff _ _).mpr hcons.1
      rw [hrest]
      simp [mapLookup, mapLookup_insert]
    · have hhead : mapLookup ((k, v) :: rest) a = mapLookup rest a := by
        simp [mapLookup, ha]
      rw [hhead]
      cases hr : mapLookup rest a <;> simp [mapLookup_insert, ha]

/-- Membership in the collected deletion list. -/
theorem mem_toDeleteList (self : List (SocketAddr × Connection))
    (r : List (SocketAddr × HttpConnection)) (a : SocketAddr) :
    a ∈ toDeleteList self r ↔
      ∃ p ∈ self, mapContainsKey r p.2.addr = false ∧ p.2.addr = a := by
  have main : ∀ (l : List (SocketAddr × Connection)) (acc : List SocketAddr),
      a ∈ l.foldl
          (fun acc p =>
            if mapContainsKey r p.2.addr then acc else acc ++ [p.2.addr]) acc
        ↔ a ∈ acc ∨ ∃ p ∈ l, mapContainsKey r p.2.addr = false ∧ p.2.addr = a := by
    intro l
    induction l with
    | nil => intro acc; simp
    | cons q rest ih =>
      intro acc
      simp only [List.foldl_cons]
      by_cases h : mapContainsKey r q.2.addr
      · rw [if_pos h, ih]
        constructor
        · rintro (hacc | ⟨p, hp, hfalse, haddr⟩)
          · exact Or.inl hacc
          · exact Or.inr ⟨p, List.mem_cons_of_mem _ hp, hfalse, haddr⟩
        · rintro (hacc | ⟨p, hp, hfalse, haddr⟩)
          · exact Or.inl hacc
          · rcases List.mem_cons.mp hp with hq | hp2
            · subst hq; rw [h] at hfalse; cases hfalse
            · exact Or.inr ⟨p, hp2, hfalse, haddr⟩
      · rw [if_neg h, ih]
        rw [Bool.not_eq_true] at h
        constructor
        · rintro (hacc | ⟨p, hp, hfalse, haddr⟩)
          · rcases List.mem_append.mp hacc with h1 | h1
            · exact Or.inl h1
            · rcases List.mem_singleton.mp h1 with h2
              exact Or.inr ⟨q, List.mem_cons_self _ _, h, h2.symm⟩
          · exact Or.inr ⟨p, List.mem_cons_of_mem _ hp, hfalse, haddr⟩
        · rintro (hacc | ⟨p, hp, hfalse, haddr⟩)
          · exact Or.inl (List.mem_append.mpr (Or.inl hacc))
          · rcases List.mem_cons.mp hp with hq | hp2
            · subst hq
              exact Or.inl (List.mem_append.mpr (Or.inr (List.mem_singleton.mpr haddr.symm)))
            · exact Or.inr ⟨p, hp2, hfalse, haddr⟩
  rw [toDeleteList, main]
  simp

/-- Pointwise characterization of one reconciliation pass: on a well-formed
registry, the record at address `a` after the pass is the re-keyed snapshot
entry at `a` applied on top of the previous record at `a` (or on top of a
fresh record when `a` was untracked), and `none` when `a` is absent from the
re-keyed snapshot. -/
theorem lookup_ConnectionSet_update (s : ConnectionSet)
    (cc : List (Int × HttpConnection)) (now : Nat) (a : SocketAddr)
    (hwf : WFConnections s.connections) :
    mapLookup (s.update cc now).connections a =
      (mapLookup (reindex cc) a).map
        (fun conn =>
          ((mapLookup s.connections a).getD (Connection.new a now)).update conn) := by
  have hre := nodupKeys_reindex cc
  have hshow : (s.update cc now).connections
      = upsertAll now (reindex cc)
          (eraseAll s.connections (toDeleteList s.connections (reindex cc))) := rfl
  rw [hshow, mapLookup_upsertAll now (reindex cc) a _ hre, mapLookup_eraseAll]
  cases hr : mapLookup (reindex cc) a with
  | some conn =>
    have hna : a ∉ toDeleteList s.connections (reindex cc) := by
      rw [mem_toDeleteList]
      rintro ⟨p, hp, hfalse, haddr⟩
      rw [haddr, mapContainsKey, hr] at hfalse
      cases hfalse
    simp [hna]
  | none =>
    cases hs : mapLookup s.connections a with
    | none =>
      by_cases hd : a ∈ toDeleteList s.connections (reindex cc) <;> simp [hd, hs]
    | some c =>
      have hmem : (a, c) ∈ s.connections := mapLookup_mem hs
      have haddr : c.addr = a := hwf (a, c) hmem
      have hd : a ∈ toDeleteList s.connections (reindex cc) := by
        rw [mem_toDeleteList]
        refine ⟨(a, c), hmem, ?_, haddr⟩
        rw [haddr, mapContainsKey, hr]
        rfl
      simp [hd]

/-- `Connection.update` does not move a record to another address. -/
theorem Connection.update_addr (c : Connection) (hc : HttpConnection) :
    (c.update hc).addr = c.addr := rfl

/-- One reconciliation pass preserves the registry invariant. -/
theorem wf_ConnectionSet_update (s : ConnectionSet)
    (cc : List (Int × HttpConnection)) (now : Nat)
    (hwf : WFConnections s.connections) :
    WFConnections (s.update cc now).connections := by
  have herase : WFConnections
      (eraseAll s.connections (toDeleteList s.connections (reindex cc))) := by
    have hsub : ∀ (ds : List SocketAddr) (m : List (SocketAddr × Connection)),
        (eraseAll m ds).Sublist m := by
      intro ds
      induction ds with
      | nil => intro m; simp [eraseAll]
      | cons d rest ih =>
        intro m
        exact List.Sublist.trans (ih (mapEraseKey m d)) (mapEraseKey_sublist m d)
    intro p hp
    exact hwf p ((hsub _ _).subset hp)
  have hups : ∀ (r : List (SocketAddr × HttpConnection))
      (m : List (SocketAddr × Connection)), WFConnections m →
      WFConnections (upsertAll now r m) := by
    intro r
    induction r with
    | nil => intro m h; exact h
    | cons q rest ih =>
      intro m h
      apply ih
      intro p hp
      rcases List.mem_append.mp hp with h1 | h1
      · exact h p ((mapEraseKey_sublist m q.1).subset h1)
      · rcases List.mem_singleton.mp h1 with h2
        subst h2
        cases hl : mapLookup m q.1 with
        | none => simp [hl, Connection.update_addr, Connection.new]
        | some c =>
          have : c.addr = q.1 := h (q.1, c) (mapLookup_mem hl)
          simp [hl, Connection.update_addr, this]
  exact hups _ _ herase

/-- Applying the same snapshot data to a record twice is the same as
applying it once. -/
theorem Connection.update_update (c : Connection) (hc : HttpConnection) :
    (c.update hc).update hc = c.update hc := by
  obtain ⟨pa, bs, br, uri⟩ := hc
  cases uri <;> rfl

/-- C5: after one reconciliation pass, every address tracked in the registry
but absent from the re-keyed snapshot has its record removed — on that very
pass, with no grace period. -/
theorem reconcile_removes_absent (s : ConnectionSet)
    (cc : List (Int × HttpConnection)) (now : Nat) (a : SocketAddr)
    (hwf : WFConnections s.connections)
    (_htracked : mapContainsKey s.connections a = true)
    (habsent : mapContainsKey (reindex cc) a = false) :
    mapContainsKey (s.update cc now).connections a = false := by
  rw [mapContainsKey, lookup_ConnectionSet_update s cc now a hwf]
  rw [mapContainsKey] at habsent
  cases hr : mapLookup (reindex cc) a with
  | none => rfl
  | some conn => rw [hr] at habsent; simp at habsent

/-- Witness for C5: the record at `addrB` is tracked, absent from the
snapshot at `addrA`, and gone after one pass. -/
theorem reconcile_removes_absent_witness :
    WFConnections regB.connections
  ∧ mapContainsKey regB.connections addrB = true
  ∧ mapContainsKey (reindex snapshotA) addrB = false
  ∧ mapContainsKey (regB.update snapshotA 7).connections addrB = false :=
  ⟨by decide, by decide, by decide,
   reconcile_removes_absent regB snapshotA 7 addrB (by decide) (by decide) (by decide)⟩

/-- C6: reconciling twice in a row with the same snapshot leaves every
record — and in particular the set of tracked addresses — identical to
reconciling once. -/
theorem reconcile_idempotent (s : ConnectionSet)
    (cc : List (Int × HttpConnection)) (now now2 : Nat) (a : SocketAddr)
    (hwf : WFConnections s.connections) :
    mapLookup ((s.update cc now).update cc now2).connections a
        = mapLookup (s.update cc now).connections a
  ∧ mapContainsKey ((s.update cc now).update cc now2).connections a
        = mapContainsKey (s.update cc now).connections a := by
  have hwf1 := wf_ConnectionSet_update s cc now hwf
  have main : mapLookup ((s.update cc now).update cc now2).connections a
      = mapLookup (s.update cc now).connections a := by
    rw [lookup_ConnectionSet_update _ cc now2 a hwf1]
    cases hr : mapLookup (reindex cc) a with
    | none =>
      rw [lookup_ConnectionSet_update s cc now a hwf, hr]
      rfl
    | some conn =>
      rw [lookup_ConnectionSet_update s cc now a hwf, hr]
      simp only [Option.map_some', Option.getD_some]
      rw [Connection.update_update]
  exact ⟨main, by rw [mapContainsKey, mapContainsKey, main]⟩

/-- Witness for C6 on a concrete registry and snapshot. -/
theorem reconcile_idempotent_witness :
    WFConnections regB.connections
  ∧ mapLookup ((regB.update snapshotA 0).update snapshotA 1).connections addrA
      = mapLookup (regB.update snapshotA 0).connections addrA :=
  ⟨by decide, (reconcile_idempotent regB snapshotA 0 1 addrA (by decide)).1⟩

/-- C7: a peer address not currently tracked gets a fresh record — address
`a`, zeroed byte counters, sentinel URI — with the snapshot entry then
applied on top; an absent snapshot URI leaves the stored URI (hence the
sentinel) in place while both byte counters are always copied. -/
theorem reconcile_new_peer (s : ConnectionSet)
    (cc : List (Int × HttpConnection)) (now : Nat) (a : SocketAddr)
    (conn : HttpConnection)
    (hwf : WFConnections s.connections)
    (hnew : mapContainsKey s.connections a = false)
    (hsnap : mapLookup (reindex cc) a = some conn) :
    mapLookup (s.update cc now).connections a
        = some ((Connection.new a now).update conn)
  ∧ (Connection.new a now).addr = a
  ∧ (Connection.new a now).bytes_sent = 0
  ∧ (Connection.new a now).bytes_requested = 0
  ∧ (Connection.new a now).prev_bytes_sent = 0
  ∧ (Connection.new a now).last_requested_uri = "[Reading...]"
  ∧ (∀ (c : Connection) (hc : HttpConnection), hc.last_requested_uri = none →
      (c.update hc).last_requested_uri = c.last_requested_uri)
  ∧ (∀ (c : Connection) (hc : HttpConnection) (u : String),
      hc.last_requested_uri = some u → (c.update hc).last_requested_uri = u)
  ∧ (∀ (c : Connection) (hc : HttpConnection),
      (c.update hc).bytes_sent = hc.bytes_sent
        ∧ (c.update hc).bytes_requested = hc.bytes_requested) := by
  refine ⟨?_, rfl, rfl, rfl, rfl, rfl, ?_, ?_, fun c hc => ⟨rfl, rfl⟩⟩
  · rw [lookup_ConnectionSet_update s cc now a hwf, hsnap]
    have hn : mapLookup s.connections a = none := by
      cases h : mapLookup s.connections a with
      | none => rfl
      | some c => rw [mapContainsKey, h] at hnew; simp at hnew
    rw [hn]
    rfl
  · intro c hc h; simp [Connection.update, h]
  · intro c hc u h; simp [Connection.update, h]

/-- Witness for C7: the untracked `addrA` appears as a fresh record updated
by its snapshot entry. -/
theorem reconcile_new_peer_witness :
    mapContainsKey ConnectionSet.new.connections addrA = false
  ∧ mapLookup (reindex snapshotA) addrA = some snapA
  ∧ mapLookup (ConnectionSet.new.update snapshotA 3).connections addrA
      = some ((Connection.new addrA 3).update snapA) :=
  ⟨by decide, by decide,
   (reconcile_new_peer ConnectionSet.new snapshotA 3 addrA snapA
      (by decide) (by decide) (by decide)).1⟩

/-- C8: snapshot entries whose peer address cannot be resolved are silently
skipped: a reconciliation pass equals the pass over the snapshot with those
entries filtered out, the re-keyed snapshot ignores them, and appending such
an entry to a snapshot changes nothing. -/
theorem reconcile_skips_unresolvable (s : ConnectionSet)
    (cc : List (Int × HttpConnection)) (now : Nat) :
    s.update cc now = s.update (cc.filter (fun p => p.2.peer_addr.isSome)) now
  ∧ reindex cc = reindex (cc.filter (fun p => p.2.peer_addr.isSome))
  ∧ ∀ (idc : Int) (hc : HttpConnection), hc.peer_addr = none →
      reindex (cc ++ [(idc, hc)]) = reindex cc := by
  have hre : ∀ (l : List (Int × HttpConnection))
      (acc : List (SocketAddr × HttpConnection)),
      l.foldl
        (fun m p =>
          match p.2.peer_addr with
          | some peer_addr => mapInsert m peer_addr p.2
          | none => m) acc
      = (l.filter (fun p => p.2.peer_addr.isSome)).foldl
        (fun m p =>
          match p.2.peer_addr with
          | some peer_addr => mapInsert m peer_addr p.2
          | none => m) acc := by
    intro l
    induction l with
    | nil => intro acc; simp
    | cons q rest ih =>
      intro acc
      rw [List.filter_cons]
      cases hq : q.2.peer_addr with
      | none =>
        simp only [hq, Option.isSome_none, List.foldl_cons]
        rw [if_neg (by simp)]
        exact ih acc
      | some addr =>
        rw [if_pos (by simp [hq])]
        rw [List.foldl_cons, List.foldl_cons]
        simp only [hq]
        exact ih _
  have hre2 : reindex cc = reindex (cc.filter (fun p => p.2.peer_addr.isSome)) :=
    hre cc []
  refine ⟨?_, hre2, ?_⟩
  · have h1 : s.update cc now
        = ⟨upsertAll now (reindex cc)
            (eraseAll s.connections (toDeleteList s.connections (reindex cc)))⟩ := rfl
    have h2 : s.update (cc.filter (fun p => p.2.peer_addr.isSome)) now
        = ⟨upsertAll now (reindex (cc.filter (fun p => p.2.peer_addr.isSome)))
            (eraseAll s.connections
              (toDeleteList s.connections
                (reindex (cc.filter (fun p => p.2.peer_addr.isSome)))))⟩ := rfl
    rw [h1, h2, ← hre2]
  · intro idc hc h
    unfold reindex
    rw [List.foldl_append]
    simp [h]

/-- Witness for C8: appending the unresolvable entry to the concrete
snapshot leaves the re-keyed snapshot unchanged. -/
theorem reconcile_skips_unresolvable_witness :
    snapNoAddr.peer_addr = none
  ∧ reindex (snapshotA ++ [(2, snapNoAddr)]) = reindex snapshotA :=
  ⟨rfl, (reconcile_skips_unresolvable regB snapshotA 0).2.2 2 snapNoAddr rfl⟩

/-! Ring-buffer characterization. -/

/-- Appending one sample to a history overwrites exactly the slot at the
cursor position the history has reached (`length % 3`); every other slot
keeps its value. -/
theorem slotVal_append (l : List ℚ) (x : ℚ) (j : Fin 3) :
    slotVal (l ++ [x]) j = if (j : ℕ) = l.length % 3 then x else slotVal l j := by
  have hj3 : (j : ℕ) < 3 := j.isLt
  have hlen : (l ++ [x]).length = l.length + 1 := by simp
  unfold slotVal
  rw [hlen]
  by_cases hje : (j : ℕ) = l.length % 3
  · have hlt : (j : ℕ) < l.length + 1 := by omega
    rw [if_pos hje, if_pos hlt]
    have hidx : l.length + 1 - 1 - ((l.length + 1 - 1 - (j : ℕ)) % 3) = l.length := by
      omega
    rw [hidx, List.getD_append_right l [x] 0 l.length (le_refl _)]
    simp
  · rw [if_neg hje]
    by_cases hlt : (j : ℕ) < l.length
    · have hlt1 : (j : ℕ) < l.length + 1 := by omega
      rw [if_pos hlt1, if_pos hlt]
      have hidx : l.length + 1 - 1 - ((l.length + 1 - 1 - (j : ℕ)) % 3)
          = l.length - 1 - ((l.length - 1 - (j : ℕ)) % 3) := by omega
      rw [hidx, List.getD_append l [x] 0 _ (by omega)]
    · have hge : ¬ (j : ℕ) < l.length + 1 := by omega
      rw [if_neg hge, if_neg hlt]

/-- State of a freshly created ring buffer after feeding the samples of `l`:
slot contents are `slotVal l` and the cursor sits at `length % 3`. -/
theorem feedAll_new_char (l : List ℚ) :
    (feedAll ConnectionSpeedMeasurement.new l).speeds = slotVal l
  ∧ ((feedAll ConnectionSpeedMeasurement.new l).ind : ℕ) = l.length % 3 := by
  induction l using List.reverseRecOn with
  | nil =>
    refine ⟨funext fun j => ?_, rfl⟩
    have hj := j.isLt
    simp [feedAll, ConnectionSpeedMeasurement.new, slotVal]
  | append_singleton l x ih =>
    obtain ⟨hsp, hind⟩ := ih
    have hfeed : feedAll ConnectionSpeedMeasurement.new (l ++ [x])
        = (feedAll ConnectionSpeedMeasurement.new l).update x := by
      simp [feedAll]
    constructor
    · funext j
      rw [hfeed, slotVal_append]
      show Function.update (feedAll ConnectionSpeedMeasurement.new l).speeds
            (feedAll ConnectionSpeedMeasurement.new l).ind x j
          = if (j : ℕ) = l.length % 3 then x else slotVal l j
      rw [hsp]
      by_cases hj : j = (feedAll ConnectionSpeedMeasurement.new l).ind
      · rw [hj, Function.update_same, if_pos hind]
      · rw [Function.update_noteq hj]
        rw [if_neg fun hcond => hj (Fin.ext (hcond.trans hind.symm))]
    · rw [hfeed]
      show (((feedAll ConnectionSpeedMeasurement.new l).ind + 1 : Fin 3) : ℕ)
          = (l ++ [x]).length % 3
      rw [Fin.val_add, hind, Fin.val_one]
      have hlen : (l ++ [x]).length = l.length + 1 := by simp
      rw [hlen]
      omega

/-- Reading a list at equal indices, once through `getElem` and once through
`getD`. -/
theorem getElem_idx_congr (l : List ℚ) (i j : ℕ) (h : i < l.length)
    (e : i = j) : l.get ⟨i, h⟩ = l.getD j 0 := by
  subst e
  rw [List.getD_eq_getElem l 0 h]
  rfl

/-- The last three elements of a list of length at least 3, spelled with
`getD`. -/
theorem drop_last_three (l : List ℚ) (h : 3 ≤ l.length) :
    l.drop (l.length - 3)
      = [l.getD (l.length - 3) 0, l.getD (l.length - 2) 0, l.getD (l.length - 1) 0] := by
  have hlen : (l.drop (l.length - 3)).length = 3 := by
    rw [List.length_drop]; omega
  apply List.ext_getElem
  · rw [hlen]; rfl
  · intro i h1 h2
    rw [hlen] at h1
    rw [List.getElem_drop]
    interval_cases i
    · show l.get ⟨l.length - 3 + 0, by omega⟩ = l.getD (l.length - 3) 0
      exact getElem_idx_congr l _ _ _ (by omega)
    · show l.get ⟨l.length - 3 + 1, by omega⟩ = l.getD (l.length - 2) 0
      exact getElem_idx_congr l _ _ _ (by omega)
    · show l.get ⟨l.length - 3 + 2, by omega⟩ = l.getD (l.length - 1) 0
      exact getElem_idx_congr l _ _ _ (by omega)

/-- The three slots of a fed ring buffer sum to the sum of the last
`min 3 N` samples. -/
theorem sum_slotVal (l : List ℚ) :
    slotVal l 0 + slotVal l 1 + slotVal l 2 = (l.drop (l.length - 3)).sum := by
  have v0 : ((0 : Fin 3) : ℕ) = 0 := rfl
  have v1 : ((1 : Fin 3) : ℕ) = 1 := rfl
  have v2 : ((2 : Fin 3) : ℕ) = 2 := rfl
  by_cases h3 : 3 ≤ l.length
  · rw [drop_last_three l h3]
    have hr : l.length % 3 < 3 := Nat.mod_lt _ (by norm_num)
    unfold slotVal
    rw [v0, v1, v2]
    rw [if_pos (by omega), if_pos (by omega), if_pos (by omega)]
    have hcase : l.length % 3 = 0 ∨ l.length % 3 = 1 ∨ l.length % 3 = 2 := by omega
    rcases hcase with h | h | h
    · rw [show l.length - 1 - ((l.length - 1 - 0) % 3) = l.length - 3 by omega,
         show l.length - 1 - ((l.length - 1 - 1) % 3) = l.length - 2 by omega,
         show l.length - 1 - ((l.length - 1 - 2) % 3) = l.length - 1 by omega]
      simp only [List.sum_cons, List.sum_nil]
      ring
    · rw [show l.length - 1 - ((l.length - 1 - 0) % 3) = l.length - 1 by omega,
         show l.length - 1 - ((l.length - 1 - 1) % 3) = l.length - 3 by omega,
         show l.length - 1 - ((l.length - 1 - 2) % 3) = l.length - 2 by omega]
      simp only [List.sum_cons, List.sum_nil]
      ring
    · rw [show l.length - 1 - ((l.length - 1 - 0) % 3) = l.length - 2 by omega,
         show l.length - 1 - ((l.length - 1 - 1) % 3) = l.length - 1 by omega,
         show l.length - 1 - ((l.length - 1 - 2) % 3) = l.length - 3 by omega]
      simp only [List.sum_cons, List.sum_nil]
      ring
  · rcases l with _ | ⟨a, l1⟩
    · simp [slotVal]
    · rcases l1 with _ | ⟨b, l2⟩
      · simp [slotVal, v0, v1, v2, List.getD]
      · rcases l2 with _ | ⟨c, l3⟩
        · simp [slotVal, v0, v1, v2, List.getD]
        · exfalso
          simp only [List.length_cons] at h3
          omega

/-- C3: each `update` overwrites the slot at the current cursor and advances
the cursor modulo 3; `get_avg` is the unweighted mean of the 3 slots, so on
a freshly created buffer fed `N` samples it equals the sum of the last
`min 3 N` samples (the remaining slots still zero) divided by 3 — `0` before
any sample, biased low for the first two samples — the cursor after `N`
samples sits at `N % 3`, and a 4th sample overwrites the 1st slot. -/
theorem speed_estimator_spec (s : ConnectionSpeedMeasurement) (x : ℚ)
    (l : List ℚ) (j : Fin 3) (a b c d : ℚ) :
    (s.update x).speeds s.ind = x
  ∧ (j ≠ s.ind → (s.update x).speeds j = s.speeds j)
  ∧ (s.update x).ind = s.ind + 1
  ∧ s.get_avg = (s.speeds 0 + s.speeds 1 + s.speeds 2) / 3
  ∧ ConnectionSpeedMeasurement.new.get_avg = 0
  ∧ (feedAll ConnectionSpeedMeasurement.new l).get_avg
      = (l.drop (l.length - 3)).sum / 3
  ∧ ((feedAll ConnectionSpeedMeasurement.new l).ind : ℕ) = l.length % 3
  ∧ ((feedAll ConnectionSpeedMeasurement.new [a, b, c]).update d).speeds 0 = d := by
  refine ⟨Function.update_same _ _ _,
    fun hj => Function.update_noteq hj _ _,
    rfl, rfl,
    by norm_num [ConnectionSpeedMeasurement.get_avg, ConnectionSpeedMeasurement.new],
    ?_, (feedAll_new_char l).2, ?_⟩
  · show ((feedAll ConnectionSpeedMeasurement.new l).speeds 0
        + (feedAll ConnectionSpeedMeasurement.new l).speeds 1
        + (feedAll ConnectionSpeedMeasurement.new l).speeds 2) / 3 = _
    rw [(feedAll_new_char l).1, sum_slotVal]
  · show Function.update (feedAll ConnectionSpeedMeasurement.new [a, b, c]).speeds
        (feedAll ConnectionSpeedMeasurement.new [a, b, c]).ind d 0 = d
    rw [show (feedAll ConnectionSpeedMeasurement.new [a, b, c]).ind = 0 from rfl]
    exact Function.update_same _ _ _

/-- Witness for C3: a buffer fed `1, 2, 3, 4` averages the last three
samples, and an off-cursor slot is untouched by an update. -/
theorem speed_estimator_spec_witness :
    ((1 : Fin 3) ≠ ConnectionSpeedMeasurement.new.ind
      ∧ (ConnectionSpeedMeasurement.new.update 5).speeds 1
          = ConnectionSpeedMeasurement.new.speeds 1)
  ∧ (feedAll ConnectionSpeedMeasurement.new [1, 2, 3, 4]).get_avg = 3 := by
  refine ⟨⟨by decide, ?_⟩, ?_⟩
  · exact (speed_estimator_spec ConnectionSpeedMeasurement.new 5 [] 1 0 0 0 0).2.1
      (by decide)
  · have h := (speed_estimator_spec ConnectionSpeedMeasurement.new 0 [1, 2, 3, 4]
      1 0 0 0 0).2.2.2.2.2.1
    rw [h]
    norm_num
